import Mathlib

/-!
# Verification of the OpenMW mod-checker shadowing analysis

A shallow embedding of `openmw-modchecker.py`.  Strings are modelled as
`List Char`; the filesystem (the part of the world `os.walk` observes) is
modelled as a map from a directory path to the walk's flattened output: the
list of (containing directory, file name) pairs, in walk order.  A directory
that does not exist on disk maps to the empty list, matching `os.walk`,
which yields nothing for a missing path (its default `onerror=None`
swallows the error).

The functions `get_mod_file_list`, `read_openmw_cfg`,
`mod_name_from_data_path` and `check_mod` are translated from the source
one for one; `checked_mod_names` models the "check all mods" loop of
`main` (lines 290-306).  Logging calls have no semantic content and are
dropped; the three terminal branches of `check_mod` (the early
`return False` at line 116, the overwritten `return False` at line 177 and
the fall-through report at lines 183-193) become the three constructors of
`ShadowResult`, carrying the data each branch reports.
-/

set_option autoImplicit false

/-- The characters of a string literal, the working representation here. -/
def chars (s : String) : List Char := s.data

/-- `os.path.sep` on the POSIX systems the tool targets. -/
def pathSep : Char := '/'

/-- Python `needle in hay` for strings: substring containment. -/
def listContains (needle hay : List Char) : Bool :=
  hay.tails.any fun t => needle.isPrefixOf t

/-- Python `str.lower` (ASCII case folding, which is all the tool meets). -/
def lowerL (s : List Char) : List Char := s.map Char.toLower

/-- The whitespace characters stripped by Python `str.rstrip()`. -/
def pySpace (c : Char) : Bool :=
  c == ' ' || c == '\t' || c == '\n' || c == '\r' || c == '\x0b' || c == '\x0c'

/-- Python `str.rstrip()`: drop trailing whitespace. -/
def rstrip (s : List Char) : List Char :=
  (s.reverse.dropWhile pySpace).reverse

/-- Python `str.strip(cs)`: drop leading and trailing characters from `cs`. -/
def pyStrip (cs s : List Char) : List Char :=
  ((s.dropWhile fun c => cs.contains c).reverse.dropWhile fun c => cs.contains c).reverse

/-- The suffix of `s` after the last occurrence of `sep`, assuming `sep` is
nonempty and occurs in `s` (callers guard with `listContains`). -/
def afterLastOcc (sep : List Char) : List Char → List Char
  | [] => []
  | c :: rest =>
    if listContains sep rest then afterLastOcc sep rest
    else List.drop sep.length (c :: rest)

/-- Python `s.split(sep)[-1]` for the separators used in the source
(`data="` and `/`), neither of which can overlap itself, so the last piece
of the split is exactly the suffix after the last occurrence of `sep`
(or `s` itself when `sep` does not occur). -/
def pySplitLast (sep s : List Char) : List Char :=
  if !sep.isEmpty && listContains sep s then afterLastOcc sep s else s

/-- Python `os.path.join(a, b)` in the shapes the source uses
(`b` relative, `a` without a trailing separator). -/
def joinPath (a b : List Char) : List Char := a ++ pathSep :: b

/-- `OK_DIRS`, the allow-list of asset subdirectory names (lines 18-27). -/
def OK_DIRS : List (List Char) :=
  [chars "bookart", chars "fonts", chars "icons", chars "meshes",
   chars "music", chars "sound", chars "splash", chars "textures"]

/-- One file produced by the directory walk: the directory `os.walk` found
it in (`r` in the source) and its bare name (`_file`). -/
structure WalkFile where
  root : List Char
  name : List Char

/-- The filesystem as `os.walk` observes it: each directory path maps to
the flattened walk output below it.  A missing directory maps to `[]`. -/
def FS : Type := List Char → List WalkFile

/-- The inner loop of `get_mod_file_list` (lines 68-74): for one walked
file, one appended copy of the lower-cased name per allow-listed category
name occurring in the lower-cased full path. -/
def fileMatches (wf : WalkFile) : List (List Char) :=
  (OK_DIRS.filter fun d => listContains d (lowerL (joinPath wf.root wf.name))).map
    fun _ => lowerL wf.name

/-- `get_mod_file_list` (lines 59-75): scan a mod directory and list the
lower-cased names of files sitting under any allow-listed category. -/
def get_mod_file_list (fs : FS) (mod_dir : List Char) : List (List Char) :=
  ((fs mod_dir).map fileMatches).flatten

/-- The line-90 condition of `read_openmw_cfg`: keep a line iff it starts
with `data=` and its lower-casing does not contain `data files`. -/
def keepLine (line : List Char) : Bool :=
  (chars "data=").isPrefixOf line && !(listContains (chars "data files") (lowerL line))

/-- The loop of `read_openmw_cfg` (lines 89-92): `count` starts at 1 and
advances only on kept lines; the ordered dict is insertion-ordered. -/
def read_openmw_cfg_go : Nat → List (List Char) → List (Nat × List Char)
  | _, [] => []
  | count, line :: rest =>
    if keepLine line then (count, line) :: read_openmw_cfg_go (count + 1) rest
    else read_openmw_cfg_go count rest

/-- `read_openmw_cfg` (lines 78-93) applied to the lines of the file. -/
def read_openmw_cfg (line_list : List (List Char)) : List (Nat × List Char) :=
  read_openmw_cfg_go 1 line_list

/-- `mod_name_from_data_path` (lines 96-100):
`datastring.split('data="')[-1].split(os.path.sep)[-1].replace('"', "").rstrip()`;
`replace('"', "")` on a one-character pattern is a filter. -/
def mod_name_from_data_path (datastring : List Char) : List Char :=
  rstrip ((pySplitLast [pathSep] (pySplitLast (chars "data=\"") datastring)).filter
    fun c => c != '"')

/-- The observable outcome of `check_mod`: the early no-files return
(line 116), the overwritten return with its accumulated `ow_by` list
(lines 171-177), or the fall-through "can stay" report with the remaining
file list (lines 183-193). -/
inductive ShadowResult where
  | noFiles : ShadowResult
  | overwritten : List (List Char) → ShadowResult
  | canStay : List (List Char) → ShadowResult
deriving DecidableEq

/-- The inner removal loop of `check_mod` (lines 160-170): for each file of
the later mod present in the remaining list, remove its first occurrence
and record the later mod's name once, in first-seen order. -/
def procNext (mod1 ow_by nf : List (List Char)) (next_mod : List Char) :
    List (List Char) × List (List Char) :=
  nf.foldl
    (fun st f =>
      if st.1.contains f then
        (st.1.erase f, if st.2.contains next_mod then st.2 else st.2 ++ [next_mod])
      else st)
    (mod1, ow_by)

/-- The walk of `check_mod` (lines 118-193) over the load-order entries,
carrying `start_checking`, the remaining file list and `ow_by`. -/
def checkLoop (fs : FS) (base_dir _mod : List Char) :
    List (Nat × List Char) → Bool → List (List Char) → List (List Char) → ShadowResult
  | [], _, mod1_files, _ => .canStay mod1_files
  | (_, p) :: rest, start_checking, mod1_files, ow_by =>
    if listContains (pathSep :: _mod) p && !start_checking then
      checkLoop fs base_dir _mod rest true mod1_files ow_by
    else if start_checking then
      if 0 < mod1_files.length then
        let next_mod := mod_name_from_data_path p
        if next_mod == _mod then
          checkLoop fs base_dir _mod rest start_checking mod1_files ow_by
        else
          let nf := get_mod_file_list fs (joinPath base_dir next_mod)
          if nf.length == 0 then
            checkLoop fs base_dir _mod rest start_checking mod1_files ow_by
          else
            let st := procNext mod1_files ow_by nf next_mod
            checkLoop fs base_dir _mod rest start_checking st.1 st.2
      else .overwritten ow_by
    else checkLoop fs base_dir _mod rest start_checking mod1_files ow_by

/-- `check_mod` (lines 103-193). -/
def check_mod (fs : FS) (_mod : List Char) (all_paths : List (Nat × List Char))
    (base_dir : List Char) : ShadowResult :=
  let mod1_files := get_mod_file_list fs (joinPath base_dir _mod)
  if mod1_files.length == 0 then .noFiles
  else checkLoop fs base_dir _mod all_paths false mod1_files []

/-- The load-order position at which `check_mod`'s walk is triggered: the
first entry whose raw line contains `os.path.sep + _mod` (the line-120
condition), if any. -/
def findStartPos (_mod : List Char) (all_paths : List (Nat × List Char)) : Option Nat :=
  (all_paths.find? fun q => listContains (pathSep :: _mod) q.2).map fun q => q.1

/-- Model of `pathlib.Path(s).name` for paths that do not end in a
separator: the part after the last separator. -/
def pathlib_name (s : List Char) : List Char := pySplitLast [pathSep] s

/-- The "check all mods" loop of `main` (lines 290-306), abstracted to the
list of mod names handed to `check_mod`, in order.  Line 293 computes
`data_mod_path.replace("data=", "")`, but line 294 rebuilds `mod_path`
from the original `data_mod_path`, so only the end-stripping of quote
characters and the newline survives and the `data=` prefix does not come
off. -/
def checked_mod_names (all_data_paths : List (Nat × List Char)) (base_dir : List Char) :
    List (List Char) :=
  all_data_paths.foldl
    (fun acc q =>
      if (chars "data=").isPrefixOf q.2 then
        let mod_path := pyStrip (chars "'\"\n") q.2
        if mod_path == base_dir then acc
        else acc ++ [pathlib_name mod_path]
      else acc)
    []

/-- The union (as one concatenated list) of the asset lists of the entries
of `post`, skipping entries whose derived identifier equals the target:
what the walk can ever match the target's files against. -/
def laterFiles (fs : FS) (base_dir t : List Char) (post : List (Nat × List Char)) :
    List (List Char) :=
  ((post.filter fun q => !(mod_name_from_data_path q.2 == t)).map fun q =>
    get_mod_file_list fs (joinPath base_dir (mod_name_from_data_path q.2))).flatten

/-- One-based enumeration of a list starting at a given counter. -/
def enumFrom {α : Type} : Nat → List α → List (Nat × α)
  | _, [] => []
  | k, a :: as => (k, a) :: enumFrom (k + 1) as

/-! ## Concrete fixtures

Small filesystems and load orders used by the counterexample and
evaluation theorems below.  All follow the same shape: mods live under
`/mods`, each mod keeps its assets under an allow-listed subdirectory. -/

/-- The spec's first scenario: A contributes x and y, B contributes x,
C contributes y. -/
def fsABC : FS := fun d =>
  if d = chars "/mods/A" then
    [⟨chars "/mods/A/meshes", chars "x.nif"⟩, ⟨chars "/mods/A/meshes", chars "y.nif"⟩]
  else if d = chars "/mods/B" then [⟨chars "/mods/B/meshes", chars "x.nif"⟩]
  else if d = chars "/mods/C" then [⟨chars "/mods/C/meshes", chars "y.nif"⟩]
  else []

/-- The load order `[A, B, C]` as parsed config lines. -/
def pathsABC : List (Nat × List Char) :=
  [(1, chars "data=\"/mods/A\"\n"), (2, chars "data=\"/mods/B\"\n"),
   (3, chars "data=\"/mods/C\"\n")]

/-- A mod D holding two files with the same base name in two different
allow-listed subfolders, plus a distinct third file; a mod E contributing
that shared base name once. -/
def fsDup : FS := fun d =>
  if d = chars "/mods/D" then
    [⟨chars "/mods/D/meshes", chars "x.nif"⟩, ⟨chars "/mods/D/icons", chars "x.nif"⟩,
     ⟨chars "/mods/D/meshes", chars "z.nif"⟩]
  else if d = chars "/mods/E" then [⟨chars "/mods/E/meshes", chars "x.nif"⟩]
  else []

/-- The load order `[D, E]`. -/
def pathsDE : List (Nat × List Char) :=
  [(1, chars "data=\"/mods/D\"\n"), (2, chars "data=\"/mods/E\"\n")]

/-- Mods Z, A and B each holding one private file; Z is kept out of the
load orders that use this filesystem. -/
def fsZAB : FS := fun d =>
  if d = chars "/mods/Z" then [⟨chars "/mods/Z/meshes", chars "q.nif"⟩]
  else if d = chars "/mods/A" then [⟨chars "/mods/A/meshes", chars "a.nif"⟩]
  else if d = chars "/mods/B" then [⟨chars "/mods/B/meshes", chars "b.nif"⟩]
  else []

/-- The load order `[A, B]` (no Z anywhere). -/
def pathsAB : List (Nat × List Char) :=
  [(1, chars "data=\"/mods/A\"\n"), (2, chars "data=\"/mods/B\"\n")]

/-- Mods A and B both contributing the base name x; the load order that
goes with it declares a path `/m/AB` whose text contains `/A` without a
separator after the `A`. -/
def fsAB_x : FS := fun d =>
  if d = chars "/mods/A" then [⟨chars "/mods/A/meshes", chars "x.nif"⟩]
  else if d = chars "/mods/B" then [⟨chars "/mods/B/meshes", chars "x.nif"⟩]
  else []

/-- A load order whose first entry mentions `/AB`: the target `A` occurs
in it only as a non-delimited prefix of `AB`. -/
def pathsAB_sub : List (Nat × List Char) :=
  [(1, chars "data=\"/m/AB\"\n"), (2, chars "data=\"/mods/B\"\n"),
   (3, chars "data=\"/mods/C\"\n")]

/-- The spec's second scenario: A contributes x, y and z, B contributes x,
C contributes y, so z stays uncovered. -/
def fsKeep : FS := fun d =>
  if d = chars "/mods/A" then
    [⟨chars "/mods/A/meshes", chars "x.nif"⟩, ⟨chars "/mods/A/meshes", chars "y.nif"⟩,
     ⟨chars "/mods/A/meshes", chars "z.nif"⟩]
  else if d = chars "/mods/B" then [⟨chars "/mods/B/meshes", chars "x.nif"⟩]
  else if d = chars "/mods/C" then [⟨chars "/mods/C/meshes", chars "y.nif"⟩]
  else []

/-- A mod U holding one file with an upper-cased name. -/
def fsCaseU : FS := fun d =>
  if d = chars "/mods/U" then [⟨chars "/mods/U/meshes", chars "X.NIF"⟩] else []

/-- The same mod U with the same file name lower-cased. -/
def fsCaseL : FS := fun d =>
  if d = chars "/mods/U" then [⟨chars "/mods/U/meshes", chars "x.nif"⟩] else []

/-! ## Helper lemmas about the embedded operations -/

theorem contains_eq_decide_mem (l : List (List Char)) (x : List Char) :
    l.contains x = decide (x ∈ l) :=
  List.elem_eq_mem x l

theorem contains_nil (x : List Char) : ([] : List (List Char)).contains x = false := rfl

theorem contains_cons (a x : List Char) (l : List (List Char)) :
    (a :: l).contains x = ((x == a) || l.contains x) := by
  simp [contains_eq_decide_mem, List.mem_cons, Bool.decide_or, Bool.beq_eq_decide_eq]

theorem contains_append (l₁ l₂ : List (List Char)) (x : List Char) :
    (l₁ ++ l₂).contains x = (l₁.contains x || l₂.contains x) := by
  simp [contains_eq_decide_mem, List.mem_append, Bool.decide_or]

theorem mem_of_contains_eq_true {l : List (List Char)} {x : List Char}
    (h : l.contains x = true) : x ∈ l := by
  rw [contains_eq_decide_mem] at h
  exact of_decide_eq_true h

theorem not_mem_of_contains_eq_false {l : List (List Char)} {x : List Char}
    (h : l.contains x = false) : x ∉ l := by
  rw [contains_eq_decide_mem] at h
  simpa using h

/-- Unfolding one file of the later mod through the removal loop. -/
theorem procNext_cons (mod1 ow : List (List Char)) (f : List Char)
    (nf : List (List Char)) (nm : List Char) :
    procNext mod1 ow (f :: nf) nm =
      if mod1.contains f then
        procNext (mod1.erase f) (if ow.contains nm then ow else ow ++ [nm]) nf nm
      else procNext mod1 ow nf nm := by
  by_cases hf : f ∈ mod1 <;> simp [procNext, contains_eq_decide_mem, hf]

/-- With a duplicate-free remaining list, the removal loop deletes exactly
the names the later mod also has, keeping the rest in order. -/
theorem procNext_fst_of_nodup (nf : List (List Char)) :
    ∀ (mod1 ow : List (List Char)) (nm : List Char), mod1.Nodup →
      (procNext mod1 ow nf nm).1 = mod1.filter fun x => !(nf.contains x) := by
  induction nf with
  | nil =>
    intro mod1 ow nm _
    simp [procNext, contains_nil]
  | cons f nf ih =>
    intro mod1 ow nm h
    rw [procNext_cons]
    by_cases hf : mod1.contains f = true
    · rw [if_pos hf, ih _ _ _ (h.erase f), List.Nodup.erase_eq_filter h f,
        List.filter_filter]
      apply List.filter_congr
      intro x _
      rw [contains_cons]
      cases hxf : (x == f) <;> cases hnfx : nf.contains x <;>
        simp only [hxf, hnfx, bne, Bool.not_false, Bool.not_true, Bool.and_true,
          Bool.and_false, Bool.true_and, Bool.false_and, Bool.or_false, Bool.or_true,
          Bool.false_or, Bool.true_or]
    · rw [if_neg hf, ih _ _ _ h]
      have hfm : f ∉ mod1 :=
        not_mem_of_contains_eq_false (Bool.eq_false_iff.mpr hf)
      apply List.filter_congr
      intro x hx
      have hxf : (x == f) = false := by
        have hne : x ≠ f := fun he => hfm (he ▸ hx)
        simpa using hne
      rw [contains_cons, hxf, Bool.false_or]

/-- The removal loop treats the remaining list as a multiset: after one
later mod is processed, each name's count drops by the number of copies
the later mod has, saturating at zero. -/
theorem procNext_count (nf : List (List Char)) :
    ∀ (mod1 ow : List (List Char)) (nm x : List Char),
      ((procNext mod1 ow nf nm).1).count x =
        mod1.count x - min (mod1.count x) (nf.count x) := by
  induction nf with
  | nil =>
    intro mod1 ow nm x
    simp [procNext]
  | cons f nf ih =>
    intro mod1 ow nm x
    rw [procNext_cons]
    by_cases hf : mod1.contains f = true
    · rw [if_pos hf, ih]
      have hmem : f ∈ mod1 := mem_of_contains_eq_true hf
      by_cases hx : x = f
      · subst hx
        rw [List.count_erase_self, List.count_cons_self]
        have hpos : 0 < mod1.count x := List.count_pos_iff.mpr hmem
        omega
      · rw [List.count_erase_of_ne hx, List.count_cons_of_ne hx]
    · rw [if_neg hf, ih]
      have hnot : f ∉ mod1 :=
        not_mem_of_contains_eq_false (Bool.eq_false_iff.mpr hf)
      by_cases hx : x = f
      · subst hx
        have h0 : mod1.count x = 0 := List.count_eq_zero.mpr hnot
        simp [h0]
      · rw [List.count_cons_of_ne hx]

theorem laterFiles_nil (fs : FS) (base t : List Char) :
    laterFiles fs base t [] = [] := rfl

theorem laterFiles_cons_self (fs : FS) (base t : List Char) (n : Nat) (p : List Char)
    (post : List (Nat × List Char)) (hid : mod_name_from_data_path p = t) :
    laterFiles fs base t ((n, p) :: post) = laterFiles fs base t post := by
  simp [laterFiles, hid]

theorem laterFiles_cons_other (fs : FS) (base t : List Char) (n : Nat) (p : List Char)
    (post : List (Nat × List Char)) (hid : ¬ mod_name_from_data_path p = t) :
    laterFiles fs base t ((n, p) :: post) =
      get_mod_file_list fs (joinPath base (mod_name_from_data_path p)) ++
        laterFiles fs base t post := by
  simp [laterFiles, hid]

/-- Before the target is found, entries whose line does not contain
`sep + target` are passed over without any effect. -/
theorem checkLoop_skip_pre (fs : FS) (base t : List Char) :
    ∀ (pre rest : List (Nat × List Char)) (m ow : List (List Char)),
      (∀ q ∈ pre, listContains (pathSep :: t) q.2 = false) →
      checkLoop fs base t (pre ++ rest) false m ow = checkLoop fs base t rest false m ow := by
  intro pre
  induction pre with
  | nil => intro rest m ow _; rfl
  | cons q pre ih =>
    intro rest m ow h
    obtain ⟨n, p⟩ := q
    have hq : listContains (pathSep :: t) p = false := h (n, p) (by simp)
    simp only [List.cons_append, checkLoop, hq]
    simpa using ih rest m ow fun r hr => h r (by simp [hr])

/-- The entry whose line contains `sep + target` flips `start_checking`
and contributes nothing else. -/
theorem checkLoop_start (fs : FS) (base t : List Char) (n : Nat) (p : List Char)
    (post : List (Nat × List Char)) (m ow : List (List Char))
    (hp : listContains (pathSep :: t) p = true) :
    checkLoop fs base t ((n, p) :: post) false m ow = checkLoop fs base t post true m ow := by
  simp [checkLoop, hp]

/-- After the start, an entry deriving the target's own name is skipped. -/
theorem checkLoop_step_skip (fs : FS) (base t : List Char) (n : Nat) (p : List Char)
    (rest : List (Nat × List Char)) (m ow : List (List Char))
    (hm : 0 < m.length) (hid : mod_name_from_data_path p = t) :
    checkLoop fs base t ((n, p) :: rest) true m ow = checkLoop fs base t rest true m ow := by
  simp [checkLoop, hid, hm]

/-- After the start, an entry whose own asset list is empty is skipped. -/
theorem checkLoop_step_emptyfiles (fs : FS) (base t : List Char) (n : Nat) (p : List Char)
    (rest : List (Nat × List Char)) (m ow : List (List Char))
    (hm : 0 < m.length) (hid : ¬ mod_name_from_data_path p = t)
    (hnf : get_mod_file_list fs (joinPath base (mod_name_from_data_path p)) = []) :
    checkLoop fs base t ((n, p) :: rest) true m ow = checkLoop fs base t rest true m ow := by
  simp [checkLoop, hid, hm, hnf]

/-- After the start, a real entry with files runs the removal loop. -/
theorem checkLoop_step_proc (fs : FS) (base t : List Char) (n : Nat) (p : List Char)
    (rest : List (Nat × List Char)) (m ow : List (List Char))
    (hm : 0 < m.length) (hid : ¬ mod_name_from_data_path p = t)
    (hnf : get_mod_file_list fs (joinPath base (mod_name_from_data_path p)) ≠ []) :
    checkLoop fs base t ((n, p) :: rest) true m ow =
      checkLoop fs base t rest true
        (procNext m ow (get_mod_file_list fs (joinPath base (mod_name_from_data_path p)))
          (mod_name_from_data_path p)).1
        (procNext m ow (get_mod_file_list fs (joinPath base (mod_name_from_data_path p)))
          (mod_name_from_data_path p)).2 := by
  have hlen : ((get_mod_file_list fs (joinPath base (mod_name_from_data_path p))).length == 0) = false := by
    simp [List.length_eq_zero, hnf]
  simp [checkLoop, hid, hm, hlen]

/-- After the start, any entry met with an already-empty remaining list
ends the walk with the overwritten verdict. -/
theorem checkLoop_step_empty (fs : FS) (base t : List Char) (n : Nat) (p : List Char)
    (rest : List (Nat × List Char)) (ow : List (List Char)) :
    checkLoop fs base t ((n, p) :: rest) true [] ow = .overwritten ow := by
  simp [checkLoop]

/-- The must-keep invariant: once started, if the remaining list is
duplicate-free and holds a name no later entry can match, the walk runs to
the end and reports exactly the unmatched names, in order. -/
theorem checkLoop_keep (fs : FS) (base t : List Char) :
    ∀ (post : List (Nat × List Char)) (m ow : List (List Char)) (f : List Char),
      m.Nodup → f ∈ m → f ∉ laterFiles fs base t post →
      checkLoop fs base t post true m ow =
        .canStay (m.filter fun x => !((laterFiles fs base t post).contains x)) := by
  intro post
  induction post with
  | nil =>
    intro m ow f _ _ _
    simp [checkLoop, laterFiles_nil, contains_nil]
  | cons q post ih =>
    intro m ow f hnd hf hfl
    obtain ⟨n, p⟩ := q
    have hm : 0 < m.length := List.length_pos.mpr (List.ne_nil_of_mem hf)
    by_cases hid : mod_name_from_data_path p = t
    · rw [laterFiles_cons_self fs base t n p post hid] at hfl ⊢
      rw [checkLoop_step_skip fs base t n p post m ow hm hid]
      exact ih m ow f hnd hf hfl
    · rw [laterFiles_cons_other fs base t n p post hid] at hfl ⊢
      by_cases hnf : get_mod_file_list fs (joinPath base (mod_name_from_data_path p)) = []
      · rw [checkLoop_step_emptyfiles fs base t n p post m ow hm hid hnf, hnf]
        simpa using ih m ow f hnd hf (by simpa [hnf] using hfl)
      · rw [checkLoop_step_proc fs base t n p post m ow hm hid hnf]
        rw [procNext_fst_of_nodup _ _ _ _ hnd]
        have hfnf : f ∉ get_mod_file_list fs (joinPath base (mod_name_from_data_path p)) :=
          fun hmem => hfl (List.mem_append.mpr (Or.inl hmem))
        have hfpost : f ∉ laterFiles fs base t post :=
          fun hmem => hfl (List.mem_append.mpr (Or.inr hmem))
        have hf' : f ∈ m.filter fun x =>
            !((get_mod_file_list fs (joinPath base (mod_name_from_data_path p))).contains x) := by
          refine List.mem_filter.mpr ⟨hf, ?_⟩
          rw [contains_eq_decide_mem]
          simpa using hfnf
        rw [ih _ _ f (hnd.filter _) hf' hfpost]
        rw [List.filter_filter]
        congr 1
        apply List.filter_congr
        intro x _
        rw [contains_append]
        cases h1 : (get_mod_file_list fs (joinPath base (mod_name_from_data_path p))).contains x <;>
          cases h2 : (laterFiles fs base t post).contains x <;>
            simp only [h1, h2, Bool.not_or, Bool.not_false, Bool.not_true, Bool.and_true,
              Bool.and_false, Bool.true_and, Bool.false_and, Bool.or_false, Bool.or_true,
              Bool.false_or, Bool.true_or]

theorem read_openmw_cfg_go_eq (line_list : List (List Char)) :
    ∀ k, read_openmw_cfg_go k line_list = enumFrom k (line_list.filter keepLine) := by
  induction line_list with
  | nil => intro k; rfl
  | cons l rest ih =>
    intro k
    by_cases hl : keepLine l = true <;> simp [read_openmw_cfg_go, enumFrom, hl, ih]

/-- Walked file lists depend on the walked names only through their
lower-casing (and on the containing directories as given). -/
theorem fileMatches_congr (w₁ w₂ : WalkFile) (hr : w₁.root = w₂.root)
    (hn : lowerL w₁.name = lowerL w₂.name) : fileMatches w₁ = fileMatches w₂ := by
  unfold fileMatches joinPath
  rw [show lowerL (w₁.root ++ pathSep :: w₁.name) =
      lowerL w₁.root ++ Char.toLower pathSep :: lowerL w₁.name from by simp [lowerL]]
  rw [show lowerL (w₂.root ++ pathSep :: w₂.name) =
      lowerL w₂.root ++ Char.toLower pathSep :: lowerL w₂.name from by simp [lowerL]]
  rw [hr, hn]

theorem map_fileMatches_congr :
    ∀ (l₁ l₂ : List WalkFile),
      l₁.map (fun wf => (wf.root, lowerL wf.name)) = l₂.map (fun wf => (wf.root, lowerL wf.name)) →
      l₁.map fileMatches = l₂.map fileMatches := by
  intro l₁
  induction l₁ with
  | nil =>
    intro l₂ h
    cases l₂ with
    | nil => rfl
    | cons b l₂ => simp at h
  | cons a l₁ ih =>
    intro l₂ h
    cases l₂ with
    | nil => simp at h
    | cons b l₂ =>
      simp only [List.map_cons, List.cons.injEq, Prod.mk.injEq] at h
      obtain ⟨⟨hr, hn⟩, htl⟩ := h
      simp only [List.map_cons, List.cons.injEq]
      exact ⟨fileMatches_congr a b hr hn, ih l₂ htl⟩

/-- The first load-order entry whose raw line contains `sep + target` is
the one `find?` returns. -/
theorem find_first_match (t : List Char) :
    ∀ (pre : List (Nat × List Char)) (n : Nat) (p : List Char) (post : List (Nat × List Char)),
      (∀ q ∈ pre, listContains (pathSep :: t) q.2 = false) →
      listContains (pathSep :: t) p = true →
      (pre ++ (n, p) :: post).find? (fun q => listContains (pathSep :: t) q.2) = some (n, p) := by
  intro pre
  induction pre with
  | nil =>
    intro n p post _ hp
    exact List.find?_cons_of_pos _ (by simpa using hp)
  | cons q pre ih =>
    intro n p post hpre hp
    have hq := hpre q (by simp)
    rw [List.cons_append, List.find?_cons_of_neg _ (by simp [hq])]
    exact ih n p post (fun r hr => hpre r (by simp [hr])) hp

/-! ## The claims -/

/-- C1: the claim says that a target whose asset set is fully matched by
later mods gets `SAFE_TO_REMOVE` and that the walk stops as soon as the
remaining set empties.  The code only tests emptiness at the top of the
NEXT entry's iteration, so on the spec's own scenario (load order
`[A, B, C]`, A = `{x, y}`, B = `{x}`, C = `{y}`, where coverage completes
on the last entry) `check_mod` falls through to the "can stay" (MUST_KEEP)
exit with remaining file count 0 and never reports the mod as overwritten:
a code bug, evaluated here. -/
theorem check_mod_full_cover_last_entry_can_stay :
    check_mod fsABC (chars "A") pathsABC (chars "/mods") = .canStay [] := by decide

/-- C2 counterexample: a mod holding the same base name in two different
allow-listed subfolders enumerates it TWICE — the enumeration is a list
that keeps duplicates, not a set collapsing them to one entry. -/
theorem get_mod_file_list_keeps_duplicates :
    get_mod_file_list fsDup (chars "/mods/D") =
      [chars "x.nif", chars "x.nif", chars "z.nif"] ∧
    ¬ (get_mod_file_list fsDup (chars "/mods/D")).Nodup :=
  ⟨by decide, by decide⟩

/-- C2 (amended): the enumerated file list is a multiset — duplicates are
retained — and the walk's removal loop decrements per occurrence: after a
later mod's files are processed, each name's remaining count is the old
count minus the number of copies the later mod has, saturating at zero. -/
theorem procNext_removes_per_occurrence :
    ∀ (mod1 ow nf : List (List Char)) (nm x : List Char),
      ((procNext mod1 ow nf nm).1).count x =
        mod1.count x - min (mod1.count x) (nf.count x) :=
  fun mod1 ow nf nm x => procNext_count nf mod1 ow nm x

/-- C3 counterexample: target D enumerates `[x, x, z]` (same base name in
two asset subfolders), the later mod E matches `x`; `z` is never matched,
so the claim applies and predicts a remaining count of 1 unmatched file
(`z`, on the spec's set reading of the asset set `{x, z}`), but the code
reports 2 entries left because only one of the two `x` copies was
removed. -/
theorem check_mod_counts_duplicate_occurrences :
    check_mod fsDup (chars "D") pathsDE (chars "/mods") =
      .canStay [chars "x.nif", chars "z.nif"] := by decide

/-- C3 (amended): for a target found in the load order whose enumerated
list is duplicate-free, if some enumerated file is never matched by any
later entry (entries deriving the target's own identifier being skipped),
the walk runs to the end and reports exactly the unmatched files, in
order — so the remaining count equals the number of unmatched files. -/
theorem check_mod_must_keep_remaining
    (fs : FS) (base t : List Char) (pre post : List (Nat × List Char)) (n : Nat)
    (p f : List Char)
    (hpre : ∀ q ∈ pre, listContains (pathSep :: t) q.2 = false)
    (hp : listContains (pathSep :: t) p = true)
    (hnd : (get_mod_file_list fs (joinPath base t)).Nodup)
    (hf : f ∈ get_mod_file_list fs (joinPath base t))
    (hfl : f ∉ laterFiles fs base t post) :
    check_mod fs t (pre ++ (n, p) :: post) base =
      .canStay ((get_mod_file_list fs (joinPath base t)).filter
        fun x => !((laterFiles fs base t post).contains x)) := by
  have hne : get_mod_file_list fs (joinPath base t) ≠ [] := List.ne_nil_of_mem hf
  show (if (get_mod_file_list fs (joinPath base t)).length == 0 then ShadowResult.noFiles
      else checkLoop fs base t (pre ++ (n, p) :: post) false
        (get_mod_file_list fs (joinPath base t)) []) = _
  rw [if_neg (by simp [List.length_eq_zero, hne])]
  rw [checkLoop_skip_pre fs base t pre ((n, p) :: post) _ _ hpre]
  rw [checkLoop_start fs base t n p post _ _ hp]
  exact checkLoop_keep fs base t post _ [] f hnd hf hfl

/-- Witness for C3's amended theorem: the spec's second scenario
(A = `{x, y, z}`, B = `{x}`, C = `{y}`) leaves exactly `z`. -/
theorem check_mod_must_keep_remaining_witness :
    check_mod fsKeep (chars "A") pathsABC (chars "/mods") = .canStay [chars "z.nif"] :=
  (check_mod_must_keep_remaining fsKeep (chars "/mods") (chars "A") []
      [(2, chars "data=\"/mods/B\"\n"), (3, chars "data=\"/mods/C\"\n")] 1
      (chars "data=\"/mods/A\"\n") (chars "z.nif")
      (by decide) (by decide) (by decide) (by decide) (by decide)).trans (by decide)

/-- C4 counterexample: a target absent from the load order lands in the
very same "can stay" terminal exit (with its full file list as remaining)
that a genuinely must-keep target lands in — there is no distinct
`NOT_IN_LOAD_ORDER` status in the code. -/
theorem not_found_shares_exit_with_must_keep :
    check_mod fsZAB (chars "Z") pathsAB (chars "/mods") = .canStay [chars "q.nif"] ∧
    check_mod fsZAB (chars "A") pathsAB (chars "/mods") = .canStay [chars "a.nif"] :=
  ⟨by decide, by decide⟩

/-- C4 (amended): a target with a nonempty asset list that no load-order
line contains (prefixed by the separator) is handled non-fatally: the walk
never starts, nothing is removed, and `check_mod` takes the same "can
stay" (MUST_KEEP) exit with the full enumeration as remaining. -/
theorem check_mod_not_found_can_stay
    (fs : FS) (t base : List Char) (paths : List (Nat × List Char))
    (hnone : ∀ q ∈ paths, listContains (pathSep :: t) q.2 = false)
    (hne : get_mod_file_list fs (joinPath base t) ≠ []) :
    check_mod fs t paths base = .canStay (get_mod_file_list fs (joinPath base t)) := by
  show (if (get_mod_file_list fs (joinPath base t)).length == 0 then ShadowResult.noFiles
      else checkLoop fs base t paths false (get_mod_file_list fs (joinPath base t)) []) = _
  rw [if_neg (by simp [List.length_eq_zero, hne])]
  have h := checkLoop_skip_pre fs base t paths []
    (get_mod_file_list fs (joinPath base t)) [] hnone
  rw [List.append_nil] at h
  rw [h]
  rfl

/-- Witness for C4's amended theorem: Z is not in the `[A, B, C]` load
order and keeps its single file. -/
theorem check_mod_not_found_can_stay_witness :
    check_mod fsZAB (chars "Z") pathsABC (chars "/mods") = .canStay [chars "q.nif"] :=
  (check_mod_not_found_can_stay fsZAB (chars "Z") (chars "/mods") pathsABC
      (by decide) (by decide)).trans (by decide)

/-- C5: once the walk has started, an entry whose derived identifier
equals the target is skipped: with a nonempty remaining list the step
changes neither the remaining list nor `overriddenBy` and the rest of the
walk proceeds unchanged; met with an already-empty remaining list it ends
the walk returning `overriddenBy` as is — so no such entry is ever
appended to `overriddenBy` and none ever removes a file from the target's
own set, even when the identifier occurs at several positions. -/
theorem checkLoop_skips_duplicate_target_entries
    (fs : FS) (base t : List Char) (n : Nat) (p : List Char)
    (rest : List (Nat × List Char)) (m ow : List (List Char))
    (hid : mod_name_from_data_path p = t) :
    (m ≠ [] →
      checkLoop fs base t ((n, p) :: rest) true m ow = checkLoop fs base t rest true m ow) ∧
    checkLoop fs base t ((n, p) :: rest) true [] ow = .overwritten ow :=
  ⟨fun hm => checkLoop_step_skip fs base t n p rest m ow (List.length_pos.mpr hm) hid,
    checkLoop_step_empty fs base t n p rest ow⟩

/-- Witness for C5: a duplicate `data="/mods/A"` entry met mid-walk is a
no-op for target A. -/
theorem checkLoop_skips_duplicate_target_entries_witness :
    ((([chars "x.nif"] : List (List Char)) ≠ []) →
      checkLoop fsABC (chars "/mods") (chars "A")
          [(4, chars "data=\"/mods/A\"\n")] true [chars "x.nif"] [] =
        checkLoop fsABC (chars "/mods") (chars "A") [] true [chars "x.nif"] []) ∧
    checkLoop fsABC (chars "/mods") (chars "A")
        [(4, chars "data=\"/mods/A\"\n")] true [] [] = .overwritten [] :=
  checkLoop_skips_duplicate_target_entries fsABC (chars "/mods") (chars "A") 4
    (chars "data=\"/mods/A\"\n") [] [chars "x.nif"] [] (by decide)

/-- C6 counterexample: the middle line starts with `data=` and its value
(`/home/x/my data files backup`) is NOT equal, case-insensitively, to the
placeholder token `data files` — it merely contains it — yet
`read_openmw_cfg` drops it (the code tests substring containment on the
whole lower-cased line, not equality of the value), and the third line is
numbered 2, not 3. -/
theorem read_openmw_cfg_skips_substring_match :
    read_openmw_cfg
      [chars "data=\"/m/A\"\n", chars "data=/home/x/my data files backup\n",
       chars "data=\"/m/B\"\n"] =
      [(1, chars "data=\"/m/A\"\n"), (2, chars "data=\"/m/B\"\n")] := by decide

/-- C6 (amended): building the index keeps exactly the lines that start
with `data=` and whose lower-casing does not CONTAIN the substring
`data files`; kept lines get 1-based sequential positions counted over
kept lines only, so skipped lines never consume a position. -/
theorem read_openmw_cfg_positions (line_list : List (List Char)) :
    read_openmw_cfg line_list = enumFrom 1 (line_list.filter keepLine) :=
  read_openmw_cfg_go_eq line_list 1

/-- C7 counterexample: with target `A` and first entry `data="/m/AB"`,
the substring `/A` occurs only as a non-delimited prefix of `AB`, so on
the claim's reading the target is not in the load order and the walk
should never start; the code starts the walk there (position 1) and goes
on to report A as overwritten by B. -/
theorem walk_starts_on_undelimited_match :
    findStartPos (chars "A") pathsAB_sub = some 1 ∧
    check_mod fsAB_x (chars "A") pathsAB_sub (chars "/mods") = .overwritten [chars "B"] :=
  ⟨by decide, by decide⟩

/-- C7 (amended): the walk starts right after the first (lowest-position)
entry whose RAW line contains the target identifier immediately preceded
by the path separator — no delimiter is required after the identifier —
and the lookup yields exactly that entry's position. -/
theorem findStartPos_first_prefixed_match
    (fs : FS) (base t : List Char) (pre post : List (Nat × List Char)) (n : Nat)
    (p : List Char) (m ow : List (List Char))
    (hpre : ∀ q ∈ pre, listContains (pathSep :: t) q.2 = false)
    (hp : listContains (pathSep :: t) p = true) :
    findStartPos t (pre ++ (n, p) :: post) = some n ∧
    checkLoop fs base t (pre ++ (n, p) :: post) false m ow =
      checkLoop fs base t post true m ow := by
  constructor
  · unfold findStartPos
    rw [find_first_match t pre n p post hpre hp]
    rfl
  · rw [checkLoop_skip_pre fs base t pre ((n, p) :: post) m ow hpre]
    exact checkLoop_start fs base t n p post m ow hp

/-- Witness for C7's amended theorem: target B is found at position 2 of
`[A, B, C]` and the walk resumes at C. -/
theorem findStartPos_first_prefixed_match_witness :
    findStartPos (chars "B") pathsABC = some 2 ∧
    checkLoop fsABC (chars "/mods") (chars "B") pathsABC false [chars "x.nif"] [] =
      checkLoop fsABC (chars "/mods") (chars "B")
        [(3, chars "data=\"/mods/C\"\n")] true [chars "x.nif"] [] :=
  findStartPos_first_prefixed_match fsABC (chars "/mods") (chars "B")
    [(1, chars "data=\"/mods/A\"\n")] [(3, chars "data=\"/mods/C\"\n")] 2
    (chars "data=\"/mods/B\"\n") [chars "x.nif"] [] (by decide) (by decide)

/-- C8: the claim says an entry whose declared path equals the base
directory is skipped in check-all mode.  Line 294 rebuilds `mod_path` from
the raw line, so after end-stripping it still carries the `data="` prefix
and can never equal the base directory: with base `/mods` and the lines
`data="/mods"` and `data="/mods/A"`, the base-directory entry is NOT
skipped and is analyzed under the name `mods` — a code bug, evaluated
here. -/
theorem checked_mod_names_base_dir_not_skipped :
    checked_mod_names
      (read_openmw_cfg [chars "data=\"/mods\"\n", chars "data=\"/mods/A\"\n"])
      (chars "/mods") = [chars "mods", chars "A"] := by decide

/-- C9: a target whose asset enumeration is empty — in particular one
whose directory does not exist, since the walk of a missing directory
yields nothing — gets `noFiles` whatever the load order is: the walk is
never touched. -/
theorem check_mod_empty_enumeration_no_files
    (fs : FS) (t base : List Char)
    (h : get_mod_file_list fs (joinPath base t) = []) :
    ∀ paths, check_mod fs t paths base = .noFiles := by
  intro paths
  show (if (get_mod_file_list fs (joinPath base t)).length == 0 then ShadowResult.noFiles
      else checkLoop fs base t paths false (get_mod_file_list fs (joinPath base t)) []) = _
  rw [if_pos (by simp [h])]

/-- Witness for C9: a filesystem on which every directory is missing. -/
theorem check_mod_empty_enumeration_no_files_witness :
    check_mod (fun _ => []) (chars "A") pathsABC (chars "/mods") = .noFiles :=
  check_mod_empty_enumeration_no_files (fun _ => []) (chars "A") (chars "/mods") rfl pathsABC

/-- C10: locating the target compares the raw strings case-sensitively —
when every raw line lacks the literal `sep + target` the lookup yields no
position, even if some line matches it case-insensitively — whereas asset
enumeration depends on walked file names only through their lower-casing,
so asset matching is case-folded on both sides. -/
theorem locate_case_sensitive_assets_case_folded
    (t : List Char) (paths : List (Nat × List Char)) (e : Nat × List Char)
    (fs₁ fs₂ : FS) (d : List Char)
    (he : e ∈ paths)
    (hci : listContains (lowerL (pathSep :: t)) (lowerL e.2) = true)
    (hcs : ∀ r ∈ paths, listContains (pathSep :: t) r.2 = false)
    (hmap : (fs₁ d).map (fun wf => (wf.root, lowerL wf.name)) =
        (fs₂ d).map (fun wf => (wf.root, lowerL wf.name))) :
    findStartPos t paths = none ∧ get_mod_file_list fs₁ d = get_mod_file_list fs₂ d := by
  constructor
  · unfold findStartPos
    rw [List.find?_eq_none.mpr (fun x hx => by simp [hcs x hx])]
    rfl
  · unfold get_mod_file_list
    rw [map_fileMatches_congr (fs₁ d) (fs₂ d) hmap]

/-- Witness for C10: `ModA` vs a line declaring `/m/moda`, and the same
walked file named `X.NIF` vs `x.nif`. -/
theorem locate_case_sensitive_assets_case_folded_witness :
    findStartPos (chars "ModA") [(1, chars "data=\"/m/moda\"\n")] = none ∧
    get_mod_file_list fsCaseU (chars "/mods/U") = get_mod_file_list fsCaseL (chars "/mods/U") :=
  locate_case_sensitive_assets_case_folded (chars "ModA")
    [(1, chars "data=\"/m/moda\"\n")] (1, chars "data=\"/m/moda\"\n")
    fsCaseU fsCaseL (chars "/mods/U")
    (by decide) (by decide) (by decide) (by decide)
